import Mathlib

/-!
Shallow embedding of the VirtualTimeWarpElvis rollback core
(`src/time/message.rs`, `src/time/input_queue.rs`, `src/time/output_queue.rs`,
`src/machine.rs`) together with theorems settling the frozen claims about it.

Modelling conventions:
* Rust `usize` virtual times and machine ids become `Nat`; the `i32` user
  variable becomes `Int` with explicit 32-bit wrapping on the one addition
  the code performs.
* `Arc<String>` payloads are compared by pointer identity (`Arc::ptr_eq`)
  in the source, so a payload is modelled as a `Nat` identity token.
* A `BTreeMap`/`BTreeSet` is modelled as a list sorted strictly by the key
  its Rust `Ord` instance compares.  Well-formedness (sortedness /
  key-distinctness) is stated as separate predicates and hypotheses, as the
  container keeps them by construction in Rust.
* A Rust panic (a failed `unwrap`, an explicit `panic!`, or a debug-mode
  `usize` underflow) is modelled by returning `none` from the operation.
-/

/-- `Sign` from `src/time/message.rs`: `Message` (positive) or `Antimessage`. -/
inductive Sign where
  | message
  | antimessage
deriving DecidableEq, Repr

/-- `Message` from `src/time/message.rs`.  The `message` field stands for the
`Arc<MessagePayload>`: the source compares payloads only with `Arc::ptr_eq`,
so we keep just the pointer identity as a `Nat`. -/
structure Message where
  send_time : Nat
  rec_time : Nat
  sender : Nat
  receiver : Nat
  sign : Sign
  message : Nat
deriving DecidableEq, Repr

/-- `MachineState` from `src/machine.rs` (`local_var1: String`,
`local_var2: i32`). -/
structure MachineState where
  local_var1 : String
  local_var2 : Int
deriving DecidableEq, Repr

def MachineState.new : MachineState := ⟨"", 0⟩

/-- `StampedMachineState` from `src/machine.rs`.  Its Rust `Ord` is
`other.virtual_time_stamp.cmp(&self.virtual_time_stamp).reverse()`: the
operand swap and the `.reverse()` cancel, so the order is plain ascending
order on `virtual_time_stamp` (and ignores `machine_state`). -/
structure StampedMachineState where
  machine_state : Option MachineState
  virtual_time_stamp : Nat
deriving DecidableEq, Repr

/-- Two's-complement wrap of an integer into the `i32` range, the release-mode
semantics of the single `i32` addition (`local_var2 += 5`) in the source. -/
def wrap32 (n : Int) : Int := (n + 2 ^ 31) % 2 ^ 32 - 2 ^ 31

def i32add (a b : Int) : Int := wrap32 (a + b)

/-- Ordered insertion into a list sorted strictly by `key`: the position a
`BTreeMap`/`BTreeSet` keyed by `key` stores a new element at.  Only reached
when no element with an equal key is present. -/
def insertSortedBy (key : Message → Nat) (m : Message) : List Message → List Message
  | [] => [m]
  | x :: xs => if key m < key x then m :: x :: xs else x :: insertSortedBy key m xs

/-- The shared annihilating-insert discipline of `InputQueue::insert`
(`src/time/input_queue.rs`) and `OutputQueue::push`
(`src/time/output_queue.rs`): both first test `contains` on a B-tree
container whose `Ord` compares only `key` (rec_time resp. send_time), remove
the key-equal entry when present, and otherwise insert. -/
def insertAnnihilate (key : Message → Nat) (m : Message) (l : List Message) : List Message :=
  if l.any (fun x => key x == key m) then
    l.eraseP (fun x => key x == key m)
  else
    insertSortedBy key m l

/-- `InputQueue` from `src/time/input_queue.rs`: a `BTreeMap<WrappedMessage, ()>`
whose `Ord` compares only `rec_time`, plus the `threshold` cursor.  The map is
modelled as its ascending key sequence. -/
structure InputQueue where
  map : List Message
  threshold : Nat
deriving DecidableEq, Repr

def InputQueue.new (threshold : Nat) : InputQueue := ⟨[], threshold⟩

/-- `InputQueue::insert`. -/
def InputQueue.insert (q : InputQueue) (message : Message) : InputQueue :=
  { q with map := insertAnnihilate (fun x => x.rec_time) message q.map }

/-- `InputQueue::remove_smallest`: removes and returns the minimum-`rec_time`
entry (the head of the ascending key sequence). -/
def InputQueue.remove_smallest (q : InputQueue) : Option Message × InputQueue :=
  match q.map with
  | [] => (none, q)
  | x :: xs => (some x, { q with map := xs })

/-- `InputQueue::peek_smallest_greater`: `range (Excluded threshold, Unbounded)`
followed by `.next()`, i.e. the first entry with `rec_time > threshold`.  The
Rust method takes `&mut self` but never mutates, which the returned unchanged
queue records. -/
def InputQueue.peek_smallest_greater (q : InputQueue) : Option Message × InputQueue :=
  (q.map.find? (fun x => decide (q.threshold < x.rec_time)), q)

/-- `InputQueue::update_threshold`. -/
def InputQueue.update_threshold (q : InputQueue) (new_thresh : Nat) : InputQueue :=
  { q with threshold := new_thresh }

/-- `OutputQueue` from `src/time/output_queue.rs`: a
`BTreeSet<MessageBySendTime>` whose `Ord` compares only `send_time`. -/
structure OutputQueue where
  set : List Message
deriving DecidableEq, Repr

def OutputQueue.new : OutputQueue := ⟨[]⟩

/-- `OutputQueue::push`. -/
def OutputQueue.push (q : OutputQueue) (message : Message) : OutputQueue :=
  ⟨insertAnnihilate (fun x => x.send_time) message q.set⟩

/-- `OutputQueue::pop`. -/
def OutputQueue.pop (q : OutputQueue) : Option Message × OutputQueue :=
  match q.set with
  | [] => (none, q)
  | x :: xs => (some x, ⟨xs⟩)

/-- `OutputQueue::range(start, end)`: all stored messages with
`start ≤ send_time ≤ end`, in key order, without removal.  (`recieve_outer`
only calls it with `start < end`, where this coincides with the Rust
`BTreeSet::range`, which would panic on `start > end`.) -/
def OutputQueue.range (q : OutputQueue) (lo hi : Nat) : List Message :=
  q.set.filter (fun x => decide (lo ≤ x.send_time ∧ x.send_time ≤ hi))

/-- `BTreeSet::insert` on the `state_queue : BTreeSet<StampedMachineState>`:
ordered insertion in ascending `virtual_time_stamp` order; when an Ord-equal
element (same stamp) is present the set keeps the existing element and
discards the new one. -/
def stateInsert (s : StampedMachineState) :
    List StampedMachineState → List StampedMachineState
  | [] => [s]
  | x :: xs =>
    if s.virtual_time_stamp < x.virtual_time_stamp then s :: x :: xs
    else if s.virtual_time_stamp = x.virtual_time_stamp then x :: xs
    else x :: stateInsert s xs

/-- `Machine` from `src/machine.rs`. -/
structure Machine where
  machine_id : Nat
  local_virtual_time : Nat
  state : MachineState
  input_queue : InputQueue
  output_queue : OutputQueue
  state_queue : List StampedMachineState
deriving DecidableEq, Repr

/-- `Machine::new`: empty queues, default state, and the initial
`(0, initial_state)` entry in the state history. -/
def Machine.new (machine_id : Nat) (local_virtual_time : Nat) : Machine :=
  { machine_id
    local_virtual_time
    state := MachineState.new
    input_queue := InputQueue.new local_virtual_time
    output_queue := OutputQueue.new
    state_queue := [⟨some MachineState.new, 0⟩] }

/-- `Machine::send_outer`: push onto the output queue and return the message. -/
def Machine.send_outer (m : Machine) (message : Message) : Machine × Message :=
  ({ m with output_queue := m.output_queue.push message }, message)

/-- `Machine::make_message`.  `Arc::new` creates a fresh payload identity,
passed in here as the `payload` token. -/
def Machine.make_message (m : Machine) (payload : Nat) (sign : Sign) : Message :=
  { send_time := m.local_virtual_time
    rec_time := m.local_virtual_time + 5
    sender := m.machine_id
    receiver := 0
    sign
    message := payload }

/-- `Machine::send_inner`. -/
def Machine.send_inner (m : Machine) (payload : Nat) : Machine × Message :=
  m.send_outer (m.make_message payload Sign.message)

/-- `Machine::recieve_outer`.  Result `none` models a panic; otherwise the
pair is the updated machine and the Rust `Option<Vec<Message>>` result
(`none` on the plain-insert path, `some antimessages` after a rollback).

On the straggler path the steps follow the source exactly:
1. restore: `state_queue.range(Included stamp 0, Excluded stamp target).next().unwrap()`
   is, in the ascending stamp order, the first history entry with stamp below
   the target; the two `unwrap`s panic (`none`) when the range is empty or the
   entry stores no state;
2. purge: remove every entry with stamp in `[target, local_virtual_time]`;
3. antimessages: for each output-queue message with send_time in that closed
   interval (collected first, as the Rust code collects `range` into a `Vec`),
   push a sign-flipped clone via `send_outer` and collect the clones;
4. clock and cursor: `local_virtual_time := target` and
   `threshold := target - 1`; on `target = 0` the Rust `usize` subtraction
   underflows (debug-mode panic), modelled as `none`;
5. insert the straggler. -/
def Machine.recieve_outer (m : Machine) (message : Message) :
    Option (Machine × Option (List Message)) :=
  if m.local_virtual_time ≤ message.rec_time then
    some ({ m with input_queue := m.input_queue.insert message }, none)
  else
    let rollback_target := message.rec_time
    match m.state_queue.find?
        (fun s => decide (s.virtual_time_stamp < rollback_target)) with
    | none => none
    | some most_recent_state =>
      match most_recent_state.machine_state with
      | none => none
      | some st =>
        let state_queue2 := m.state_queue.filter (fun s =>
          decide (¬ (rollback_target ≤ s.virtual_time_stamp ∧
            s.virtual_time_stamp ≤ m.local_virtual_time)))
        let sent_antimessages :=
          (m.output_queue.range rollback_target m.local_virtual_time).map
            (fun x => { x with sign := Sign.antimessage })
        let output2 := sent_antimessages.foldl OutputQueue.push m.output_queue
        if rollback_target = 0 then none
        else
          some ({ m with
              state := st
              state_queue := state_queue2
              output_queue := output2
              local_virtual_time := rollback_target
              input_queue :=
                (m.input_queue.update_threshold (rollback_target - 1)).insert
                  message },
            some sent_antimessages)

/-- `Machine::get_next_message`.  Outer `none` models a panic (the `unwrap`
on an empty peek, or the explicit sanity `panic!`); `some (m, none)` is the
antimessage skip, which happens before any mutation; `some (m', some msg)`
checkpoints the current state at the current clock, advances clock and
cursor to `msg.rec_time`, and hands `msg` to the caller. -/
def Machine.get_next_message (m : Machine) : Option (Machine × Option Message) :=
  match (m.input_queue.peek_smallest_greater).1 with
  | none => none
  | some message =>
    if message.sign = Sign.antimessage then some (m, none)
    else
      let sq := stateInsert ⟨some m.state, m.local_virtual_time⟩ m.state_queue
      if message.rec_time < m.local_virtual_time then none
      else
        some ({ m with
            state_queue := sq
            local_virtual_time := message.rec_time
            input_queue := m.input_queue.update_threshold message.rec_time },
          some message)

/-- `Machine::recieve_inner`: skip on an antimessage, otherwise run the demo
user handler `local_var2 += 5`. -/
def Machine.recieve_inner (m : Machine) : Option Machine :=
  match m.get_next_message with
  | none => none
  | some (m2, none) => some m2
  | some (m2, some _) =>
    some { m2 with
      state := { m2.state with local_var2 := i32add m2.state.local_var2 5 } }

/-! ### Spec-side definitions, for comparison with the embedded code -/

/-- Follows the spec's words (§3, §4.1): two messages are
annihilation-equivalent iff they agree on `send_time`, `receive_time`,
`sender`, `receiver`, and payload identity, irrespective of sign. -/
def annihilationEquiv (a b : Message) : Prop :=
  a.send_time = b.send_time ∧ a.rec_time = b.rec_time ∧ a.sender = b.sender ∧
    a.receiver = b.receiver ∧ a.message = b.message

instance (a b : Message) : Decidable (annihilationEquiv a b) := by
  unfold annihilationEquiv; infer_instance

/-- Follows the spec's words (§4.4): `most_recent_before(t)` returns the
state-history snapshot with the greatest `virtual_time` strictly less
than `t`. -/
def specMostRecentBefore (sq : List StampedMachineState) (t : Nat) :
    Option StampedMachineState :=
  (sq.filter (fun s => decide (s.virtual_time_stamp < t))).foldl
    (fun acc s =>
      match acc with
      | none => some s
      | some a =>
        if a.virtual_time_stamp < s.virtual_time_stamp then some s else some a)
    none

/-! ### Concrete run exercising the rollback state restoration (claim C1) -/

/-- A short honest run of the embedded machine: receive and process messages
with receive times 3 and 7 (leaving checkpoints at stamps 0 and 3), then
receive a straggler with receive time 5.  Returns the machine just before the
straggler (`.1`) and just after the rollback (`.2`). -/
def c1run : Option (Machine × Machine) := do
  let (a, _) ← (Machine.new 1 0).recieve_outer ⟨0, 3, 2, 1, Sign.message, 100⟩
  let b ← a.recieve_inner
  let (c, _) ← b.recieve_outer ⟨0, 7, 2, 1, Sign.message, 101⟩
  let d ← c.recieve_inner
  let (f, _) ← d.recieve_outer ⟨0, 5, 2, 1, Sign.message, 102⟩
  pure (d, f)

/-- C1: refuted on the code.  In the run `c1run` the state history before the
straggler holds checkpoints at stamps 0 (`local_var2 = 0`) and 3
(`local_var2 = 5`); the most recent checkpoint strictly before the straggler's
receive time 5 is the stamp-3 one, but `recieve_outer` restores the stamp-0
state: `StampedMachineState`'s `Ord` double-reverses into plain ascending
order, so `.range(..).next()` yields the oldest checkpoint, not the newest. -/
theorem c1_restore_picks_oldest_checkpoint :
    (c1run.map fun p => specMostRecentBefore p.1.state_queue 5) =
      some (some ⟨some ⟨"", 5⟩, 3⟩) ∧
    (c1run.map fun p => p.2.state) = some ⟨"", 0⟩ ∧
    (⟨"", 0⟩ : MachineState) ≠ ⟨"", 5⟩ := by
  refine ⟨rfl, rfl, by decide⟩

/-- C2: refuted on the code.  The queues' B-tree containers are keyed by an
`Ord` comparing only the ordering key, so `contains`/`remove` see any message
with an equal key as "already present": inserting a message that agrees with a
present one only on `rec_time` (input queue) or `send_time` (output queue),
while differing in sender, receiver, the other timestamp and payload identity,
still removes the present message and stores nothing. -/
theorem c2_annihilation_ignores_identity :
    ¬ annihilationEquiv ⟨2, 5, 3, 4, Sign.message, 11⟩ ⟨1, 5, 1, 2, Sign.message, 10⟩ ∧
    ((InputQueue.mk [⟨1, 5, 1, 2, Sign.message, 10⟩] 0).insert
      ⟨2, 5, 3, 4, Sign.message, 11⟩).map = [] ∧
    ¬ annihilationEquiv ⟨5, 9, 7, 8, Sign.message, 11⟩ ⟨5, 1, 1, 2, Sign.message, 10⟩ ∧
    ((OutputQueue.mk [⟨5, 1, 1, 2, Sign.message, 10⟩]).push
      ⟨5, 9, 7, 8, Sign.message, 11⟩).set = [] := by
  refine ⟨by decide, rfl, by decide, rfl⟩

/-- C3: refuted on the code.  A fresh machine has no pending message
(`peek_smallest_greater` yields nothing), and `recieve_inner` then panics on
`peek_smallest_greater().unwrap()` (modelled as `none`) instead of returning
as an idle no-op. -/
theorem c3_step_on_empty_queue_panics :
    ((Machine.new 1 0).input_queue.peek_smallest_greater).1 = none ∧
    (Machine.new 1 0).recieve_inner = none := ⟨rfl, rfl⟩

/-- C4: refuted on the code.  A machine at local virtual time 5 receiving a
straggler with receive time 0 panics (modelled as `none`): the state-history
range `[0, 0)` is empty so `.next().unwrap()` fails, and the cursor update
`rollback_target - 1` is an unsigned `usize` subtraction that would underflow
at 0; the rollback does not complete. -/
theorem c4_straggler_at_time_zero_panics :
    0 < (Machine.new 1 5).local_virtual_time ∧
    (Machine.new 1 5).recieve_outer ⟨0, 0, 2, 1, Sign.message, 50⟩ = none := by
  refine ⟨by decide, rfl⟩

/-! ### Well-formedness predicates and shared lemmas -/

/-- Key distinctness of the input queue, the structural invariant of the
backing `BTreeMap` (its `Ord` compares only `rec_time`, and a B-tree never
holds two Ord-equal keys). -/
def InputQueue.DistinctKeys (q : InputQueue) : Prop :=
  q.map.Pairwise fun a b => a.rec_time ≠ b.rec_time

/-- Key distinctness of the output queue (its `Ord` compares only
`send_time`). -/
def OutputQueue.DistinctKeys (q : OutputQueue) : Prop :=
  q.set.Pairwise fun a b => a.send_time ≠ b.send_time

/-- Key distinctness of both message queues of a machine. -/
def Machine.DistinctKeys (m : Machine) : Prop :=
  m.input_queue.DistinctKeys ∧ m.output_queue.DistinctKeys

instance (q : InputQueue) : Decidable q.DistinctKeys := by
  unfold InputQueue.DistinctKeys; infer_instance

instance (q : OutputQueue) : Decidable q.DistinctKeys := by
  unfold OutputQueue.DistinctKeys; infer_instance

instance (m : Machine) : Decidable m.DistinctKeys := by
  unfold Machine.DistinctKeys; infer_instance

theorem insertSortedBy_perm (key : Message → Nat) (m : Message) :
    ∀ l : List Message, (insertSortedBy key m l).Perm (m :: l) := by
  intro l
  induction l with
  | nil => simp [insertSortedBy]
  | cons x xs ih =>
    unfold insertSortedBy
    by_cases hk : key m < key x
    · simp [hk]
    · simp only [if_neg hk]
      exact (ih.cons x).trans (List.Perm.swap m x xs)

theorem insertAnnihilate_distinct (key : Message → Nat) (m : Message)
    (l : List Message) (h : l.Pairwise fun a b => key a ≠ key b) :
    (insertAnnihilate key m l).Pairwise fun a b => key a ≠ key b := by
  unfold insertAnnihilate
  by_cases hc : l.any (fun x => key x == key m)
  · simp only [if_pos hc]
    exact List.Pairwise.sublist (List.eraseP_sublist l) h
  · simp only [if_neg hc]
    simp only [List.any_eq_true, beq_iff_eq, not_exists, not_and] at hc
    refine ((insertSortedBy_perm key m l).pairwise_iff fun hxy => hxy.symm).2 ?_
    exact List.pairwise_cons.2 ⟨fun b hb => Ne.symm (hc b hb), h⟩

theorem foldl_push_distinct (anti : List Message) :
    ∀ oq : OutputQueue, oq.DistinctKeys →
      (anti.foldl OutputQueue.push oq).DistinctKeys := by
  induction anti with
  | nil => exact fun oq h => h
  | cons a rest ih =>
    intro oq h
    exact ih _ (insertAnnihilate_distinct (fun x => x.send_time) a oq.set h)

theorem find?_lt_min {l : List Message} {t : Nat} {msg : Message}
    (hs : l.Pairwise fun a b => a.rec_time < b.rec_time)
    (h : l.find? (fun x => decide (t < x.rec_time)) = some msg) :
    ∀ x ∈ l, t < x.rec_time → msg.rec_time ≤ x.rec_time := by
  induction l with
  | nil => simp at h
  | cons y ys ih =>
    by_cases hy : t < y.rec_time
    · rw [List.find?_cons_of_pos _ (by simpa using hy)] at h
      obtain rfl : y = msg := by simpa using h
      intro x hx _
      rcases List.mem_cons.1 hx with rfl | hx
      · exact le_refl _
      · exact le_of_lt ((List.pairwise_cons.1 hs).1 x hx)
    · rw [List.find?_cons_of_neg _ (by simpa using hy)] at h
      intro x hx hxt
      rcases List.mem_cons.1 hx with rfl | hx
      · exact absurd hxt hy
      · exact ih (List.pairwise_cons.1 hs).2 h x hx hxt

theorem stateInsert_mem {s y : StampedMachineState} :
    ∀ {l : List StampedMachineState}, y ∈ stateInsert s l → y = s ∨ y ∈ l := by
  intro l
  induction l with
  | nil => intro h; simp [stateInsert] at h; exact Or.inl h
  | cons x xs ih =>
    intro h
    unfold stateInsert at h
    split at h
    · rcases List.mem_cons.1 h with rfl | h
      · exact Or.inl rfl
      · exact Or.inr h
    · split at h
      · exact Or.inr h
      · rcases List.mem_cons.1 h with rfl | h
        · exact Or.inr (List.mem_cons_self _ _)
        · rcases ih h with h | h
          · exact Or.inl h
          · exact Or.inr (List.mem_cons_of_mem _ h)

theorem stateInsert_sorted (s : StampedMachineState) :
    ∀ l : List StampedMachineState,
      (l.Pairwise fun a b => a.virtual_time_stamp < b.virtual_time_stamp) →
      (stateInsert s l).Pairwise
        fun a b => a.virtual_time_stamp < b.virtual_time_stamp := by
  intro l
  induction l with
  | nil => intro _; simp [stateInsert]
  | cons x xs ih =>
    intro h
    obtain ⟨hx, hxs⟩ := List.pairwise_cons.1 h
    unfold stateInsert
    by_cases h1 : s.virtual_time_stamp < x.virtual_time_stamp
    · simp only [if_pos h1]
      refine List.pairwise_cons.2 ⟨?_, h⟩
      intro b hb
      rcases List.mem_cons.1 hb with rfl | hb
      · exact h1
      · exact lt_trans h1 (hx b hb)
    · simp only [if_neg h1]
      by_cases h2 : s.virtual_time_stamp = x.virtual_time_stamp
      · simp only [if_pos h2]
        exact h
      · simp only [if_neg h2]
        refine List.pairwise_cons.2 ⟨?_, ih hxs⟩
        intro b hb
        rcases stateInsert_mem hb with rfl | hb
        · exact lt_of_le_of_ne (not_lt.1 h1) fun he => h2 he.symm
        · exact hx b hb

theorem stateInsert_of_mem_stamp (s : StampedMachineState) :
    ∀ l : List StampedMachineState,
      (l.Pairwise fun a b => a.virtual_time_stamp < b.virtual_time_stamp) →
      (∃ x ∈ l, x.virtual_time_stamp = s.virtual_time_stamp) →
      stateInsert s l = l := by
  intro l
  induction l with
  | nil => intro _ h; simp at h
  | cons x xs ih =>
    intro h hex
    obtain ⟨hx, hxs⟩ := List.pairwise_cons.1 h
    obtain ⟨w, hw, hws⟩ := hex
    unfold stateInsert
    by_cases h1 : s.virtual_time_stamp < x.virtual_time_stamp
    · exfalso
      rcases List.mem_cons.1 hw with rfl | hw
      · exact absurd (hws ▸ h1) (lt_irrefl _)
      · exact absurd (hws ▸ hx w hw) (fun hlt => absurd (lt_trans hlt h1) (lt_irrefl _))
    · simp only [if_neg h1]
      by_cases h2 : s.virtual_time_stamp = x.virtual_time_stamp
      · simp [h2]
      · simp only [if_neg h2]
        rcases List.mem_cons.1 hw with rfl | hw
        · exact absurd hws (fun he => h2 he.symm)
        · rw [ih hxs ⟨w, hw, hws⟩]

/-- C7: confirmed.  On a queue whose backing map is (as the B-tree keeps it)
strictly sorted by `rec_time`, `peek_smallest_greater` yields nothing exactly
when no entry lies strictly above the threshold; when it yields a message,
that message is stored, lies strictly above the threshold, and has the
smallest `rec_time` among entries strictly above the threshold; and the queue
itself is left unchanged. -/
theorem c7_peek_returns_min_pending (q : InputQueue)
    (hs : q.map.Pairwise fun a b => a.rec_time < b.rec_time) :
    (q.peek_smallest_greater.1 = none ↔ ∀ x ∈ q.map, x.rec_time ≤ q.threshold) ∧
    (∀ msg, q.peek_smallest_greater.1 = some msg →
      msg ∈ q.map ∧ q.threshold < msg.rec_time ∧
        ∀ x ∈ q.map, q.threshold < x.rec_time → msg.rec_time ≤ x.rec_time) ∧
    q.peek_smallest_greater.2 = q := by
  refine ⟨?_, ?_, rfl⟩
  · unfold InputQueue.peek_smallest_greater
    simp only [List.find?_eq_none, decide_eq_true_eq]
    exact ⟨fun h x hx => not_lt.1 (h x hx), fun h x hx => not_lt.2 (h x hx)⟩
  · intro msg h
    exact ⟨List.mem_of_find?_eq_some h, by simpa using List.find?_some h,
      find?_lt_min hs h⟩

theorem c7_witness :
    ((⟨[⟨0, 1, 0, 0, Sign.message, 1⟩, ⟨0, 5, 0, 0, Sign.message, 2⟩], 2⟩ :
        InputQueue).map.Pairwise fun a b => a.rec_time < b.rec_time) ∧
    (⟨[⟨0, 1, 0, 0, Sign.message, 1⟩, ⟨0, 5, 0, 0, Sign.message, 2⟩], 2⟩ :
        InputQueue).peek_smallest_greater.2 =
      ⟨[⟨0, 1, 0, 0, Sign.message, 1⟩, ⟨0, 5, 0, 0, Sign.message, 2⟩], 2⟩ :=
  ⟨by decide, (c7_peek_returns_min_pending _ (by decide)).2.2⟩

/-- C8: confirmed.  When the message produced by `peek_smallest_greater` is
an antimessage, `recieve_inner` returns with the machine completely
unchanged: no checkpoint, no clock or cursor movement, no user-handler
invocation, and both queues intact. -/
theorem c8_skip_on_antimessage (m : Machine) (msg : Message)
    (hp : (m.input_queue.peek_smallest_greater).1 = some msg)
    (hsg : msg.sign = Sign.antimessage) :
    m.recieve_inner = some m := by
  unfold Machine.recieve_inner Machine.get_next_message
  rw [hp]
  simp [hsg]

theorem c8_witness :
    (((⟨1, 0, ⟨"", 0⟩, ⟨[⟨0, 3, 2, 1, Sign.antimessage, 5⟩], 0⟩, ⟨[]⟩,
          [⟨some ⟨"", 0⟩, 0⟩]⟩ : Machine).input_queue.peek_smallest_greater).1 =
        some ⟨0, 3, 2, 1, Sign.antimessage, 5⟩) ∧
    (⟨1, 0, ⟨"", 0⟩, ⟨[⟨0, 3, 2, 1, Sign.antimessage, 5⟩], 0⟩, ⟨[]⟩,
        [⟨some ⟨"", 0⟩, 0⟩]⟩ : Machine).recieve_inner =
      some ⟨1, 0, ⟨"", 0⟩, ⟨[⟨0, 3, 2, 1, Sign.antimessage, 5⟩], 0⟩, ⟨[]⟩,
        [⟨some ⟨"", 0⟩, 0⟩]⟩ :=
  ⟨rfl, c8_skip_on_antimessage _ _ rfl rfl⟩

/-- C10: confirmed.  The state history holds at most one snapshot per
virtual time (insertion keeps it strictly sorted, hence stamp-distinct);
inserting at an already-present stamp leaves the history unchanged, the
previously stored snapshot being retained and the new one discarded
(`BTreeSet::insert` does not replace an Ord-equal element); and when
`get_next_message` checkpoints at a virtual time that already has an entry,
the machine's state history is exactly what it was before. -/
theorem c10_state_history_keeps_first_snapshot (sq : List StampedMachineState)
    (s : StampedMachineState) (m : Machine)
    (hsq : sq.Pairwise fun a b => a.virtual_time_stamp < b.virtual_time_stamp)
    (hm : m.state_queue.Pairwise
      fun a b => a.virtual_time_stamp < b.virtual_time_stamp) :
    ((stateInsert s sq).Pairwise
      fun a b => a.virtual_time_stamp < b.virtual_time_stamp) ∧
    ((stateInsert s sq).Pairwise
      fun a b => a.virtual_time_stamp ≠ b.virtual_time_stamp) ∧
    ((∃ x ∈ sq, x.virtual_time_stamp = s.virtual_time_stamp) →
      stateInsert s sq = sq) ∧
    (∀ m2 r, (∃ x ∈ m.state_queue, x.virtual_time_stamp = m.local_virtual_time) →
      m.get_next_message = some (m2, r) → m2.state_queue = m.state_queue) := by
  refine ⟨stateInsert_sorted s sq hsq,
    (stateInsert_sorted s sq hsq).imp fun h => ne_of_lt h,
    stateInsert_of_mem_stamp s sq hsq, ?_⟩
  intro m2 r hex h
  unfold Machine.get_next_message at h
  cases hpk : (m.input_queue.peek_smallest_greater).1 with
  | none => rw [hpk] at h; simp at h
  | some message =>
    rw [hpk] at h
    by_cases hsg : message.sign = Sign.antimessage
    · simp only [if_pos hsg, Option.some.injEq, Prod.mk.injEq] at h
      rw [← h.1]
    · simp only [if_neg hsg] at h
      by_cases hlt : message.rec_time < m.local_virtual_time
      · simp [hlt] at h
      · simp only [if_neg hlt, Option.some.injEq, Prod.mk.injEq] at h
        rw [← h.1]
        exact stateInsert_of_mem_stamp _ _ hm hex

theorem c10_witness :
    stateInsert ⟨some ⟨"", 1⟩, 0⟩ [⟨some ⟨"", 0⟩, 0⟩] = [⟨some ⟨"", 0⟩, 0⟩] :=
  (c10_state_history_keeps_first_snapshot [⟨some ⟨"", 0⟩, 0⟩] ⟨some ⟨"", 1⟩, 0⟩
    ⟨1, 0, ⟨"", 0⟩, ⟨[⟨0, 3, 2, 1, Sign.message, 5⟩], 0⟩, ⟨[]⟩,
      [⟨some ⟨"", 0⟩, 0⟩]⟩ (by decide) (by decide)).2.2.1 (by decide)

/-- Dissection of the straggler branch of `recieve_outer`: when the call
returns an antimessage list, the incoming message was a straggler, the list
is the sign-flipped copy of the output-queue window
`[rec_time, local_virtual_time]`, and the resulting output queue is the
original one with each of those antimessages pushed in order. -/
theorem recieve_outer_rollback (m : Machine) (msg : Message) (m2 : Machine)
    (anti : List Message)
    (h : m.recieve_outer msg = some (m2, some anti)) :
    msg.rec_time < m.local_virtual_time ∧
    anti = (m.output_queue.range msg.rec_time m.local_virtual_time).map
      (fun x => { x with sign := Sign.antimessage }) ∧
    m2.output_queue = anti.foldl OutputQueue.push m.output_queue := by
  by_cases h1 : m.local_virtual_time ≤ msg.rec_time
  · simp [Machine.recieve_outer, h1] at h
  · simp only [Machine.recieve_outer, if_neg h1] at h
    split at h
    · simp at h
    · split at h
      · simp at h
      · split at h
        · simp at h
        · simp only [Option.some.injEq, Prod.mk.injEq] at h
          obtain ⟨hm2, hanti⟩ := h
          refine ⟨not_le.1 h1, hanti.symm, ?_⟩
          rw [← hm2, ← hanti]

/-- C5: confirmed.  The antimessage list returned by a rollback is exactly
the sign-flipped copy of the pre-rollback output-queue window
`[msg.rec_time, local_virtual_time]`: one negative twin per stored message
in the window, agreeing with its original on `send_time`, `rec_time`,
`sender`, `receiver` and payload identity, and nothing for messages whose
`send_time` lies outside the window. -/
theorem c5_antimessages_cover_rollback_window (m : Machine) (msg : Message)
    (m2 : Machine) (anti : List Message)
    (h : m.recieve_outer msg = some (m2, some anti)) :
    anti = (m.output_queue.range msg.rec_time m.local_virtual_time).map
      (fun x => { x with sign := Sign.antimessage }) ∧
    (∀ x ∈ m.output_queue.set,
      msg.rec_time ≤ x.send_time → x.send_time ≤ m.local_virtual_time →
        { x with sign := Sign.antimessage } ∈ anti) ∧
    (∀ a ∈ anti, a.sign = Sign.antimessage ∧
      ∃ x ∈ m.output_queue.set, msg.rec_time ≤ x.send_time ∧
        x.send_time ≤ m.local_virtual_time ∧
        a = { x with sign := Sign.antimessage }) := by
  obtain ⟨-, hanti, -⟩ := recieve_outer_rollback m msg m2 anti h
  subst hanti
  refine ⟨rfl, ?_, ?_⟩
  · intro x hx h1 h2
    exact List.mem_map_of_mem _
      (List.mem_filter.2 ⟨hx, by simp [h1, h2]⟩)
  · intro a ha
    obtain ⟨x, hx, rfl⟩ := List.mem_map.1 ha
    obtain ⟨hxm, hxb⟩ := List.mem_filter.1 hx
    simp only [decide_eq_true_eq] at hxb
    exact ⟨rfl, x, hxm, hxb.1, hxb.2, rfl⟩

theorem insertSortedBy_cons_of_ge (key : Message → Nat) (a x : Message)
    (l : List Message) (h : ¬ key a < key x) :
    insertSortedBy key a (x :: l) = x :: insertSortedBy key a l := by
  simp only [insertSortedBy, if_neg h]

theorem insertAnnihilate_cons_lt (key : Message → Nat) (a x : Message)
    (l : List Message) (h : key x < key a) :
    insertAnnihilate key a (x :: l) = x :: insertAnnihilate key a l := by
  have hne : (key x == key a) = false := by simp [Nat.ne_of_lt h]
  unfold insertAnnihilate
  simp only [List.any_cons, hne, Bool.false_or]
  by_cases hc : l.any (fun y => key y == key a)
  · simp only [if_pos hc]
    exact List.eraseP_cons_of_neg (by simp [hne])
  · simp only [if_neg hc]
    exact insertSortedBy_cons_of_ge key a x l (not_lt.2 (le_of_lt h))

theorem push_cons_commute (x a : Message) (l : List Message)
    (h : x.send_time < a.send_time) :
    OutputQueue.push ⟨x :: l⟩ a = ⟨x :: (OutputQueue.push ⟨l⟩ a).set⟩ := by
  show OutputQueue.mk (insertAnnihilate (fun y => y.send_time) a (x :: l)) =
    OutputQueue.mk (x :: insertAnnihilate (fun y => y.send_time) a l)
  rw [insertAnnihilate_cons_lt (fun y => y.send_time) a x l h]

theorem foldl_push_cons (x : Message) :
    ∀ (anti l : List Message),
      (∀ a ∈ anti, x.send_time < a.send_time) →
      anti.foldl OutputQueue.push ⟨x :: l⟩ =
        ⟨x :: (anti.foldl OutputQueue.push ⟨l⟩).set⟩ := by
  intro anti
  induction anti with
  | nil => intro l _; rfl
  | cons a rest ih =>
    intro l hall
    simp only [List.foldl_cons]
    rw [push_cons_commute x a l (hall a (List.mem_cons_self a rest))]
    rw [ih ((OutputQueue.push ⟨l⟩ a).set)
      (fun b hb => hall b (List.mem_cons_of_mem a hb))]

theorem foldl_push_twins_aux (P : Message → Bool) :
    ∀ l : List Message,
      (l.Pairwise fun a b => a.send_time < b.send_time) →
      (((l.filter P).map fun x => { x with sign := Sign.antimessage }).foldl
          OutputQueue.push ⟨l⟩).set = l.filter fun x => !(P x) := by
  intro l
  induction l with
  | nil => intro _; rfl
  | cons x xs ih =>
    intro h
    obtain ⟨hx, hxs⟩ := List.pairwise_cons.1 h
    cases hPx : P x with
    | true =>
      rw [List.filter_cons_of_pos hPx, List.map_cons, List.foldl_cons]
      have hpush :
          OutputQueue.push ⟨x :: xs⟩ { x with sign := Sign.antimessage } =
            ⟨xs⟩ := by
        simp [OutputQueue.push, insertAnnihilate, List.eraseP_cons_of_pos]
      rw [hpush, List.filter_cons_of_neg (by simp [hPx])]
      exact ih hxs
    | false =>
      rw [List.filter_cons_of_neg (by simp [hPx])]
      have hall : ∀ a ∈ (xs.filter P).map
          (fun y => { y with sign := Sign.antimessage }),
          x.send_time < a.send_time := by
        intro a ha
        obtain ⟨y, hy, rfl⟩ := List.mem_map.1 ha
        exact hx y (List.mem_filter.1 hy).1
      rw [foldl_push_cons x _ xs hall]
      rw [List.filter_cons_of_pos (by simp [hPx])]
      exact congrArg (List.cons x) (ih hxs)

theorem foldl_push_twins (P : Message → Bool) (oq : OutputQueue)
    (hs : oq.set.Pairwise fun a b => a.send_time < b.send_time) :
    (((oq.set.filter P).map fun x => { x with sign := Sign.antimessage }).foldl
        OutputQueue.push oq).set = oq.set.filter fun x => !(P x) := by
  obtain ⟨l⟩ := oq
  exact foldl_push_twins_aux P l hs

/-- C6: confirmed.  Immediately after a rollback with target
`t = msg.rec_time` from prior clock `T = local_virtual_time`, the output
queue (whose backing set is, as the B-tree keeps it, strictly sorted by
`send_time`) holds no message with `send_time` in `[t, T]`: pushing each
window message's own antimessage annihilated it. -/
theorem c6_output_window_annihilated (m : Machine) (msg : Message)
    (m2 : Machine) (anti : List Message)
    (hs : m.output_queue.set.Pairwise fun a b => a.send_time < b.send_time)
    (h : m.recieve_outer msg = some (m2, some anti)) :
    ∀ x ∈ m2.output_queue.set,
      ¬ (msg.rec_time ≤ x.send_time ∧ x.send_time ≤ m.local_virtual_time) := by
  obtain ⟨-, hanti, hout⟩ := recieve_outer_rollback m msg m2 anti h
  intro x hx
  rw [hout, hanti] at hx
  simp only [OutputQueue.range] at hx
  rw [foldl_push_twins
    (fun y => decide (msg.rec_time ≤ y.send_time ∧
      y.send_time ≤ m.local_virtual_time)) m.output_queue hs] at hx
  obtain ⟨-, hnx⟩ := List.mem_filter.1 hx
  simp only [Bool.not_eq_true', decide_eq_false_iff_not] at hnx
  exact hnx

theorem c5_witness :
    ([(⟨3, 8, 1, 0, Sign.antimessage, 7⟩ : Message)] : List Message) =
      ((⟨[⟨3, 8, 1, 0, Sign.message, 7⟩]⟩ : OutputQueue).range 2 6).map
        (fun x => { x with sign := Sign.antimessage }) :=
  (c5_antimessages_cover_rollback_window
    ⟨1, 6, ⟨"", 0⟩, ⟨[], 6⟩, ⟨[⟨3, 8, 1, 0, Sign.message, 7⟩]⟩,
      [⟨some ⟨"", 0⟩, 0⟩]⟩
    ⟨1, 2, 2, 1, Sign.message, 9⟩
    ⟨1, 2, ⟨"", 0⟩, ⟨[⟨1, 2, 2, 1, Sign.message, 9⟩], 1⟩, ⟨[]⟩,
      [⟨some ⟨"", 0⟩, 0⟩]⟩
    [⟨3, 8, 1, 0, Sign.antimessage, 7⟩] rfl).1

theorem c6_witness :
    ¬ (2 ≤ (⟨9, 14, 1, 0, Sign.message, 8⟩ : Message).send_time ∧
        (⟨9, 14, 1, 0, Sign.message, 8⟩ : Message).send_time ≤ 6) :=
  c6_output_window_annihilated
    ⟨1, 6, ⟨"", 0⟩, ⟨[], 6⟩,
      ⟨[⟨3, 8, 1, 0, Sign.message, 7⟩, ⟨9, 14, 1, 0, Sign.message, 8⟩]⟩,
      [⟨some ⟨"", 0⟩, 0⟩]⟩
    ⟨1, 2, 2, 1, Sign.message, 9⟩
    ⟨1, 2, ⟨"", 0⟩, ⟨[⟨1, 2, 2, 1, Sign.message, 9⟩], 1⟩,
      ⟨[⟨9, 14, 1, 0, Sign.message, 8⟩]⟩, [⟨some ⟨"", 0⟩, 0⟩]⟩
    [⟨3, 8, 1, 0, Sign.antimessage, 7⟩] (by decide) rfl
    ⟨9, 14, 1, 0, Sign.message, 8⟩ (by decide)

/-- Queue effect of `recieve_outer` on a non-panicking call: on both the
plain-insert path and the rollback path the new input-queue map is the
annihilating insert of the message into the old map, and the output queue is
either untouched or the old one with a batch of antimessages pushed. -/
theorem recieve_outer_queues (m : Machine) (msg : Message) (m2 : Machine)
    (r : Option (List Message)) (h : m.recieve_outer msg = some (m2, r)) :
    m2.input_queue.map =
      insertAnnihilate (fun x => x.rec_time) msg m.input_queue.map ∧
    (m2.output_queue = m.output_queue ∨
      ∃ anti : List Message,
        m2.output_queue = anti.foldl OutputQueue.push m.output_queue) := by
  by_cases h1 : m.local_virtual_time ≤ msg.rec_time
  · simp only [Machine.recieve_outer, if_pos h1, Option.some.injEq,
      Prod.mk.injEq] at h
    obtain ⟨hm2, -⟩ := h
    rw [← hm2]
    exact ⟨rfl, Or.inl rfl⟩
  · simp only [Machine.recieve_outer, if_neg h1] at h
    split at h
    · simp at h
    · split at h
      · simp at h
      · split at h
        · simp at h
        · simp only [Option.some.injEq, Prod.mk.injEq] at h
          obtain ⟨hm2, -⟩ := h
          rw [← hm2]
          exact ⟨rfl, Or.inr ⟨_, rfl⟩⟩

/-- Queue effect of `get_next_message` on a non-panicking call: the
input-queue map is untouched (only the threshold may move) and the output
queue is untouched. -/
theorem get_next_message_queues (m m2 : Machine) (r : Option Message)
    (h : m.get_next_message = some (m2, r)) :
    m2.input_queue.map = m.input_queue.map ∧
    m2.output_queue = m.output_queue := by
  unfold Machine.get_next_message at h
  cases hpk : (m.input_queue.peek_smallest_greater).1 with
  | none => rw [hpk] at h; simp at h
  | some message =>
    rw [hpk] at h
    by_cases hsg : message.sign = Sign.antimessage
    · simp only [if_pos hsg, Option.some.injEq, Prod.mk.injEq] at h
      obtain ⟨hm2, -⟩ := h
      rw [← hm2]
      exact ⟨rfl, rfl⟩
    · simp only [if_neg hsg] at h
      by_cases hlt : message.rec_time < m.local_virtual_time
      · simp [hlt] at h
      · simp only [if_neg hlt, Option.some.injEq, Prod.mk.injEq] at h
        obtain ⟨hm2, -⟩ := h
        rw [← hm2]
        exact ⟨rfl, rfl⟩

/-- C9: confirmed.  Key distinctness — the input queue never holds two
entries with the same `rec_time` and the output queue never two entries with
the same `send_time`, whatever their other fields, payload or sign — is
preserved by `insert`, `remove_smallest`, `update_threshold`,
`peek_smallest_greater`, `push`, `pop`, and by every machine operation
(`send_outer`, `send_inner`, `recieve_outer`, `get_next_message`,
`recieve_inner`). -/
theorem c9_queue_key_uniqueness (q : InputQueue) (oq : OutputQueue)
    (m : Machine) (msg : Message) (p t : Nat)
    (hq : q.DistinctKeys) (hoq : oq.DistinctKeys) (hm : m.DistinctKeys) :
    (q.insert msg).DistinctKeys ∧
    (q.remove_smallest).2.DistinctKeys ∧
    (q.update_threshold t).DistinctKeys ∧
    (q.peek_smallest_greater).2.DistinctKeys ∧
    (oq.push msg).DistinctKeys ∧
    (oq.pop).2.DistinctKeys ∧
    (m.send_outer msg).1.DistinctKeys ∧
    (m.send_inner p).1.DistinctKeys ∧
    (∀ m2 r, m.recieve_outer msg = some (m2, r) → m2.DistinctKeys) ∧
    (∀ m2 r, m.get_next_message = some (m2, r) → m2.DistinctKeys) ∧
    (∀ m2, m.recieve_inner = some m2 → m2.DistinctKeys) := by
  obtain ⟨hmi, hmo⟩ := hm
  refine ⟨insertAnnihilate_distinct _ _ _ hq, ?_, hq, hq,
    insertAnnihilate_distinct _ _ _ hoq, ?_,
    ⟨hmi, insertAnnihilate_distinct _ _ _ hmo⟩,
    ⟨hmi, insertAnnihilate_distinct _ _ _ hmo⟩, ?_, ?_, ?_⟩
  · obtain ⟨ql, qt⟩ := q
    cases ql with
    | nil => exact hq
    | cons a as => exact (List.pairwise_cons.1 hq).2
  · obtain ⟨ol⟩ := oq
    cases ol with
    | nil => exact hoq
    | cons a as => exact (List.pairwise_cons.1 hoq).2
  · intro m2 r h
    obtain ⟨hin, hout⟩ := recieve_outer_queues m msg m2 r h
    refine ⟨?_, ?_⟩
    · show m2.input_queue.map.Pairwise fun a b => a.rec_time ≠ b.rec_time
      rw [hin]
      exact insertAnnihilate_distinct _ _ _ hmi
    · rcases hout with hout | ⟨anti, hout⟩
      · rw [hout]; exact hmo
      · rw [hout]; exact foldl_push_distinct anti m.output_queue hmo
  · intro m2 r h
    obtain ⟨hin, hout⟩ := get_next_message_queues m m2 r h
    refine ⟨?_, ?_⟩
    · show m2.input_queue.map.Pairwise fun a b => a.rec_time ≠ b.rec_time
      rw [hin]
      exact hmi
    · rw [hout]
      exact hmo
  · intro m2 h
    unfold Machine.recieve_inner at h
    cases hg : m.get_next_message with
    | none => rw [hg] at h; simp at h
    | some pr =>
      obtain ⟨m3, r⟩ := pr
      rw [hg] at h
      obtain ⟨hin, hout⟩ := get_next_message_queues m m3 r hg
      have hdk3a : m3.input_queue.DistinctKeys := by
        show m3.input_queue.map.Pairwise fun a b => a.rec_time ≠ b.rec_time
        rw [hin]
        exact hmi
      have hdk3b : m3.output_queue.DistinctKeys := by
        rw [hout]
        exact hmo
      cases r with
      | none =>
        simp only [Option.some.injEq] at h
        rw [← h]
        exact ⟨hdk3a, hdk3b⟩
      | some msg2 =>
        simp only [Option.some.injEq] at h
        rw [← h]
        exact ⟨hdk3a, hdk3b⟩

theorem c9_witness :
    ((⟨[⟨0, 4, 1, 2, Sign.message, 3⟩], 0⟩ : InputQueue).insert
      ⟨0, 6, 1, 2, Sign.message, 4⟩).DistinctKeys :=
  (c9_queue_key_uniqueness ⟨[⟨0, 4, 1, 2, Sign.message, 3⟩], 0⟩ ⟨[]⟩
    (Machine.new 1 0) ⟨0, 6, 1, 2, Sign.message, 4⟩ 9 7
    (by decide) (by decide) (by decide)).1
